import Mathlib

/-!
Verification of the narration pipeline of the Aperture EPUB reader
(`main.py`).  The development shallowly embeds the pure text-normalisation
functions (`_pronounce_links`, `_pronounce_special_chars`,
`_handle_uppercase_phrases`, `_split_into_sentences`,
`_prepare_content_for_tts`), the TTS worker's producer/consumer loops and
`stop()`, and the controller entry point `toggle_read_aloud`.

Strings are modelled as `List Char` (ASCII fragment: Python's
Unicode-aware `str.isupper` / `str.title` / `\s` are modelled by explicit
ASCII tables, which agree with CPython on ASCII input).  Machine floats
(audio samples) never influence control flow; PCM buffers are abstracted
as `List Int`.  Loops whose Python form consumes a data-dependent amount
of input are given an explicit fuel argument equal to the input length,
which is always sufficient because every iteration consumes at least one
character.
-/

/-- Python whitespace (`str.strip`, regex `\s`) restricted to ASCII. -/
def pyIsSpace (c : Char) : Bool :=
  c = ' ' || c = '\t' || c = '\n' || c = '\r' || c = '\x0b' || c = '\x0c'

/-- Python `str.strip()`: drop whitespace from both ends. -/
def pyStrip (cs : List Char) : List Char :=
  ((cs.dropWhile pyIsSpace).reverse.dropWhile pyIsSpace).reverse

/-- Python `str.split(sep)` for a one-character separator: split at every
occurrence, keeping empty pieces (`"".split(s) = [""]`). -/
def splitOnChar (sep : Char) : List Char → List (List Char)
  | [] => [[]]
  | c :: cs =>
    match splitOnChar sep cs with
    | [] => [[]]
    | w :: ws => if c = sep then [] :: w :: ws else (c :: w) :: ws

/-- Python `sep.join(pieces)` for a one-character separator. -/
def joinChar (sep : Char) : List (List Char) → List Char
  | [] => []
  | [w] => w
  | w :: ws => w ++ sep :: joinChar sep ws

/-- The ASCII lower/upper case pairs. -/
def asciiCasePairs : List (Char × Char) :=
  [('a', 'A'), ('b', 'B'), ('c', 'C'), ('d', 'D'), ('e', 'E'), ('f', 'F'),
   ('g', 'G'), ('h', 'H'), ('i', 'I'), ('j', 'J'), ('k', 'K'), ('l', 'L'),
   ('m', 'M'), ('n', 'N'), ('o', 'O'), ('p', 'P'), ('q', 'Q'), ('r', 'R'),
   ('s', 'S'), ('t', 'T'), ('u', 'U'), ('v', 'V'), ('w', 'W'), ('x', 'X'),
   ('y', 'Y'), ('z', 'Z')]

/-- ASCII table for Python's per-character uppercasing (used by `str.title`). -/
def pyToUpper (c : Char) : Char := (asciiCasePairs.lookup c).getD c

/-- ASCII table for Python's per-character lowercasing (used by `str.title`). -/
def pyToLower (c : Char) : Char :=
  ((asciiCasePairs.map (fun p => (p.2, p.1))).lookup c).getD c

/-- ASCII cased character (Python `str.isupper`/`str.title` consider letters). -/
def pyIsAlpha (c : Char) : Bool :=
  ('A' ≤ c && c ≤ 'Z') || ('a' ≤ c && c ≤ 'z')

/-- ASCII uppercase letter. -/
def pyIsUpperChar (c : Char) : Bool := 'A' ≤ c && c ≤ 'Z'

/-- Python `str.isupper()`: at least one cased character and no lowercase
cased character (ASCII fragment). -/
def pyIsUpper (w : List Char) : Bool :=
  w.any pyIsAlpha && w.all (fun c => !pyIsAlpha c || pyIsUpperChar c)

/-- Worker for `pyTitle`: the state records whether the previous character
was cased, exactly as Python `str.title` walks the string. -/
def titleAux : Bool → List Char → List Char
  | _, [] => []
  | prevCased, c :: cs =>
    if pyIsAlpha c then
      (if prevCased then pyToLower c else pyToUpper c) :: titleAux true cs
    else
      c :: titleAux false cs

/-- Python `str.title()` (ASCII fragment). -/
def pyTitle (w : List Char) : List Char := titleAux false w

/-! ## `EpubReader._pronounce_links` (main.py lines 489-495)

`re.sub(r'https?://[^\s<>"]+|www\.[^\s<>"]+', replace_link, text)` is a
left-to-right non-overlapping scan: at each position the regex engine
first tries `https://`, then (backtracking over `s?`) `http://`, then
`www.`, each followed by a maximal non-empty run of characters outside
`\s<>"`. -/

/-- A character allowed inside a matched URL token (`[^\s<>"]`). -/
def isUrlChar (c : Char) : Bool :=
  !(pyIsSpace c || c = '<' || c = '>' || c = '"')

/-- Try to match one regex alternative: the literal `scheme` followed by a
maximal non-empty run of URL characters.  Returns the matched token and
the remainder of the input. -/
def matchScheme (scheme cs : List Char) : Option (List Char × List Char) :=
  if scheme.isPrefixOf cs then
    let rest := cs.drop scheme.length
    let run := rest.takeWhile isUrlChar
    if run = [] then none else some (scheme ++ run, rest.drop run.length)
  else none

/-- Try the three alternatives of the URL regex at the current position,
in the order the Python regex engine tries them. -/
def tryMatchUrl (cs : List Char) : Option (List Char × List Char) :=
  (matchScheme "https://".data cs <|> matchScheme "http://".data cs) <|>
    matchScheme "www.".data cs

/-- `re.sub(r'^https?://', '', url)`: strip one leading scheme. -/
def stripScheme (cs : List Char) : List Char :=
  if "https://".data.isPrefixOf cs then cs.drop 8
  else if "http://".data.isPrefixOf cs then cs.drop 7
  else cs

/-- The four chained `str.replace` calls of `replace_link`.  Their domains
(`.`, `/`, `-`, `_`) and images (spelled-out words) are disjoint, so the
sequential replaces act as one per-character substitution. -/
def charMapLink (c : Char) : List Char :=
  if c = '.' then " dot ".data
  else if c = '/' then " slash ".data
  else if c = '-' then " hyphen ".data
  else if c = '_' then " underscore ".data
  else [c]

/-- `re.sub(r' +', ' ', s)`: collapse runs of spaces to a single space. -/
def collapseSpaces : List Char → List Char
  | [] => []
  | [c] => [c]
  | c :: d :: rest =>
    if c = ' ' && d = ' ' then collapseSpaces (d :: rest)
    else c :: collapseSpaces (d :: rest)

/-- The inner `replace_link(match)` of `_pronounce_links`: strip the
scheme, spell out dots, slashes, hyphens and underscores, collapse
repeated spaces, strip. -/
def replaceLinkChars (url : List Char) : List Char :=
  pyStrip (collapseSpaces (((stripScheme url).map charMapLink).flatten))

/-- The `re.sub` scan of `_pronounce_links`.  Fuel bounds the number of
scan steps; `fuel = cs.length` always suffices since every step consumes
at least one input character. -/
def scanLinksF : Nat → List Char → List Char
  | _, [] => []
  | 0, cs => cs
  | fuel + 1, c :: cs =>
    match tryMatchUrl (c :: cs) with
    | some (url, rest) => replaceLinkChars url ++ scanLinksF fuel rest
    | none => c :: scanLinksF fuel cs

/-- `EpubReader._pronounce_links`. -/
def pronounce_links (s : String) : String :=
  String.mk (scanLinksF s.data.length s.data)

/-! ## `EpubReader._pronounce_special_chars` (main.py lines 497-501) -/

/-- Python `str.replace` scan (left-to-right, non-overlapping) for a
non-empty pattern `p :: ps`.  Fuel as in `scanLinksF`. -/
def replaceSubF (p : Char) (ps repl : List Char) : Nat → List Char → List Char
  | _, [] => []
  | 0, cs => cs
  | fuel + 1, c :: cs =>
    if (p :: ps).isPrefixOf (c :: cs) then
      repl ++ replaceSubF p ps repl fuel (cs.drop ps.length)
    else c :: replaceSubF p ps repl fuel cs

/-- Python `s.replace(pat, repl)` (the patterns used here are non-empty). -/
def pyReplace (pat repl s : String) : String :=
  match pat.data with
  | [] => s
  | p :: ps => String.mk (replaceSubF p ps repl.data s.data.length s.data)

/-- `EpubReader._pronounce_special_chars`: the dictionary of replacements
is applied in insertion order. -/
def pronounce_special_chars (s : String) : String :=
  pyReplace " - " " minus "
    (pyReplace "=" " equals "
      (pyReplace "+" " plus "
        (pyReplace " < " " is less than "
          (pyReplace " > " " is greater than " s))))

/-! ## `EpubReader._handle_uppercase_phrases` (main.py lines 503-520) -/

/-- `EpubReader.ACRONYMS` (main.py line 155). -/
def ACRONYMS : List String :=
  ["USA", "UK", "EU", "UN", "NASA", "FBI", "CIA", "CEO", "CFO", "CTO",
   "NFL", "NBA", "MLB", "NHL", "ESPN", "NATO", "UNESCO", "WHO", "FAQ",
   "DIY", "AI", "VR", "AR", "URL", "HTTP", "HTTPS", "WWW", "PDF", "EPUB"]

/-- `re.sub(r'[.,!?;:]$', '', word)`: drop one trailing punctuation mark. -/
def stripTrailingPunct (w : List Char) : List Char :=
  match w.getLast? with
  | some c =>
    if c = '.' || c = ',' || c = '!' || c = '?' || c = ';' || c = ':' then
      w.dropLast
    else w
  | none => w

/-- Per-word rewrite inside the `len(uppercase_words) > 2` branch. -/
def procWord (w : List Char) : List Char :=
  let clean := stripTrailingPunct w
  if pyIsUpper clean && clean.length > 1 && !ACRONYMS.contains (String.mk clean)
  then pyTitle w
  else w

/-- Per-line body of `_handle_uppercase_phrases`. -/
def processLine (line : List Char) : List Char :=
  let words := splitOnChar ' ' line
  let uppercaseWords := words.filter (fun w => pyIsUpper w && w.length > 1)
  if uppercaseWords.length > 2 then joinChar ' ' (words.map procWord)
  else line

/-- `EpubReader._handle_uppercase_phrases`. -/
def handle_uppercase_phrases (s : String) : String :=
  String.mk (joinChar '\n' ((splitOnChar '\n' s.data).map processLine))

/-- The normalisation pipeline applied to each sentence in
`_prepare_content_for_tts` (main.py lines 184-186), in source order. -/
def formatText (s : String) : String :=
  handle_uppercase_phrases (pronounce_special_chars (pronounce_links s))

/-! ## `EpubReader._split_into_sentences` (main.py lines 157-161)

`re.split(r'(?<=[.?!])\s+', text.strip())`: a maximal whitespace run is a
split point exactly when the character immediately before it is one of
`.?!`; the run itself is consumed.  The accumulator `cur` holds the
current piece reversed, so its head is the character preceding the
position being scanned. -/

/-- The lookbehind class `[.?!]`. -/
def isSentEnd (c : Char) : Bool := c = '.' || c = '?' || c = '!'

theorem dropWhile_length_le (p : α → Bool) (l : List α) :
    (l.dropWhile p).length ≤ l.length := by
  induction l with
  | nil => simp
  | cons c cs ih =>
    rw [List.dropWhile_cons]
    split
    · exact Nat.le_succ_of_le ih
    · exact Nat.le_refl _

/-- The `re.split` scan. -/
def splitSentAux (cur : List Char) : List Char → List (List Char)
  | [] => [cur.reverse]
  | c :: cs =>
    if pyIsSpace c then
      match cur with
      | p :: _ =>
        if isSentEnd p then
          cur.reverse :: splitSentAux [] (cs.dropWhile pyIsSpace)
        else splitSentAux (c :: cur) cs
      | [] => splitSentAux (c :: cur) cs
    else splitSentAux (c :: cur) cs
termination_by cs => cs.length
decreasing_by
  all_goals
    first
      | exact Nat.lt_succ_of_le (dropWhile_length_le pyIsSpace cs)
      | exact Nat.lt_succ_self cs.length

/-- `EpubReader._split_into_sentences`: split the stripped text, strip
each piece, keep only the non-empty ones. -/
def split_into_sentences (text : String) : List String :=
  if text = "" then []
  else
    (((splitSentAux [] (pyStrip text.data)).map pyStrip).filter
      (fun s => s ≠ [])).map String.mk

/-! ## `EpubReader._prepare_content_for_tts` (main.py lines 163-197)

The DOM is abstracted away: the input is the ordered list of block texts
(`element.get_text(separator=" ", strip=True)` for each matched block
element), and the rewrite of a block is recorded as the ordered list of
`(span id, span text)` pairs appended to the cleared element. -/

/-- The per-sentence loop (main.py lines 181-195): returns the recorded
`tts_text_map` entries, the spans appended to the block, and the final
value of `sentence_index`. -/
def prepareSentences :
    List String → Nat → List (String × String) × List (String × String) × Nat
  | [], idx => ([], [], idx)
  | s :: rest, idx =>
    let sentenceId := "tts-sentence-" ++ toString idx
    let formatted := formatText s
    if formatted ≠ "" then
      let (m, sp, idx2) := prepareSentences rest (idx + 1)
      ((sentenceId, formatted) :: m, (sentenceId, s ++ " ") :: sp, idx2)
    else
      prepareSentences rest idx

/-- The block loop of `_prepare_content_for_tts`, over the list of block
texts, threading `sentence_index`. -/
def prepareBlocks :
    List String → Nat → List (String × String) × List (String × String) × Nat
  | [], idx => ([], [], idx)
  | b :: rest, idx =>
    if b = "" then prepareBlocks rest idx
    else
      let sentences := split_into_sentences b
      if sentences = [] then prepareBlocks rest idx
      else
        let (m, sp, idx2) := prepareSentences sentences idx
        let (m2, sp2, idx3) := prepareBlocks rest idx2
        (m ++ m2, sp ++ sp2, idx3)

/-- `EpubReader._prepare_content_for_tts`, starting from
`sentence_index = 0`. -/
def prepare_content_for_tts (blocks : List String) :
    List (String × String) × List (String × String) × Nat :=
  prepareBlocks blocks 0

/-! ## `TTSWorker` data model -/

/-- PCM sample buffers abstracted as integer lists (their values never
influence control flow). -/
abbrev Audio := List Int

/-- One element of the bounded `audio_queue`: `(chunk_id, samples)`.  The
sentinel is `(none, none)`. -/
abbrev Frame := Option String × Option Audio

/-- The sentinel frame `(None, None)`. -/
def sentinelFrame : Frame := (none, none)

/-- Number of sentinel frames in a queue segment. -/
def countSentinel (fs : List Frame) : Nat :=
  fs.countP (fun f => f.1.isNone)

/-! ## `TTSWorker._producer` (main.py lines 68-85)

`self._is_running` is written concurrently by `stop()`; each read of the
flag is modelled as a lookup `flag t` at an abstract schedule, `t`
counting the reads made so far.  The engine call
`self.pipeline(text, voice, speed)` yields, for the given text, a finite
list of segments (each possibly `None`, which the producer skips) and
then optionally raises (a raise by the call itself is the degenerate case
of no segments); this is modelled by
`engine : String → List (Option Audio) × Option String`. -/

/-- The inner segment loop: per iteration, one flag read (`break` when
false), then enqueue when the segment is not `None`.  Returns the frames
enqueued, the next flag-read index, and whether the loop broke out early
(in which case the generator is abandoned and a pending engine error is
never raised). -/
def prodSegs (flag : Nat → Bool) (chunkId : String) :
    List (Option Audio) → Nat → List Frame × Nat × Bool
  | [], t => ([], t, false)
  | seg :: rest, t =>
    if flag t = false then ([], t + 1, true)
    else
      let (fs, t2, broke) := prodSegs flag chunkId rest (t + 1)
      (match seg with
       | some a => (some chunkId, some a) :: fs
       | none => fs, t2, broke)

/-- The chunk loop of `_producer` inside the `try`: returns the enqueued
frames, the first raised engine error (if any), and the next flag-read
index. -/
def prodChunks (flag : Nat → Bool)
    (engine : String → List (Option Audio) × Option String) :
    List (String × String) → Nat → List Frame × Option String × Nat
  | [], t => ([], none, t)
  | (chunkId, text) :: rest, t =>
    if flag t = false then ([], none, t + 1)
    else
      let (segs, segErr) := engine text
      let (fs, t2, broke) := prodSegs flag chunkId segs (t + 1)
      if broke then
        if flag t2 = false then (fs, none, t2 + 1)
        else
          let (fs2, err2, t3) := prodChunks flag engine rest (t2 + 1)
          (fs ++ fs2, err2, t3)
      else
        match segErr with
        | some e => (fs, some e, t2)
        | none =>
          if flag t2 = false then (fs, none, t2 + 1)
          else
            let (fs2, err2, t3) := prodChunks flag engine rest (t2 + 1)
            (fs ++ fs2, err2, t3)

/-- `TTSWorker._producer`: the `try` body, the `except` clause turning the
first engine exception into one `error.emit`, and the `finally` clause
enqueueing the sentinel.  Returns the full sequence of frames enqueued by
this producer and the list of error messages emitted. -/
def producer (flag : Nat → Bool)
    (engine : String → List (Option Audio) × Option String)
    (chunks : List (String × String)) (t : Nat) :
    List Frame × List String :=
  let (fs, err, _) := prodChunks flag engine chunks t
  (fs ++ [sentinelFrame],
   (err.map (fun e => "Error during TTS generation: " ++ e)).toList)

/-! ## `TTSWorker.stop` (main.py lines 120-129) -/

/-- Mutable state of a `TTSWorker` touched by `stop()`. -/
structure WorkerState where
  isRunning : Bool
  isPaused : Bool
  queue : List Frame

/-- The `while not empty: get_nowait()` drain loop of `stop()`. -/
def drainQueue : List Frame → List Frame
  | [] => []
  | _ :: rest => drainQueue rest

/-- `TTSWorker.stop`: clear the flags, drain the queue, enqueue the
sentinel (the call to `sd.stop()` acts on the external audio device). -/
def stopWorker (s : WorkerState) : WorkerState :=
  { isRunning := false
    isPaused := false
    queue := drainQueue s.queue ++ [sentinelFrame] }

/-! ## `TTSWorker.run` — the playback consumer (main.py lines 87-118)

Per loop iteration the consumer performs one `audio_queue.get(timeout=1)`;
the outcome of the `k`-th get is given by the schedule entry `reads k`:
either a dequeued frame or the `queue.Empty` timeout together with the
value `producer_thread.is_alive()` observed in the handler.  Flag reads
(`self._is_running`, `self._is_paused`) are drawn from the schedules
`running` and `paused` at the flag-read counter `t`.  A finite read
schedule models a finite observation of the session; every theorem below
supplies a schedule that makes the loop exit before the list runs out. -/

/-- Outcome of one `audio_queue.get(timeout=1)`. -/
inductive QueueRead where
  | frame (f : Frame)
  | timeoutEmpty (producerAlive : Bool)
deriving DecidableEq

/-- Externally observable consumer events, in order: `highlight_requested`
emissions, `sd.play` calls, and the `finished` signal. -/
inductive Ev where
  | highlight (id : Option String)
  | play (a : Option Audio)
  | finished
deriving DecidableEq

/-- The `while self._is_paused and self._is_running: time.sleep(0.1)`
poll; returns the flag-read index after the wait ends.  Fuel bounds the
number of polls (irrelevant whenever `paused` is constantly false). -/
def pausePoll (running paused : Nat → Bool) : Nat → Nat → Nat
  | 0, t => t
  | fuel + 1, t =>
    if paused t && running t then pausePoll running paused fuel (t + 1) else t

/-- The `while self._is_running` loop of `TTSWorker.run`, from flag-read
index `t` and `last_highlighted_id = last`. -/
def consumeLoop (running paused : Nat → Bool) (pfuel : Nat) :
    List QueueRead → Nat → Option String → List Ev
  | [], _, _ => []
  | read :: rest, t, last =>
    if running t = false then []
    else
      match read with
      | QueueRead.timeoutEmpty alive =>
        if alive then consumeLoop running paused pfuel rest (t + 1) last
        else []
      | QueueRead.frame (none, _) => []
      | QueueRead.frame (some chunkId, a) =>
        let hl : List Ev :=
          if some chunkId = last then [] else [Ev.highlight (some chunkId)]
        let t2 := pausePoll running paused pfuel (t + 1)
        if running t2 = false then hl
        else hl ++ Ev.play a :: consumeLoop running paused pfuel rest (t2 + 1) (some chunkId)

/-- `TTSWorker.run`: after the loop exits for any reason the worker emits
`highlight_requested(None)` and then `finished`, exactly once each. -/
def consumerRun (running paused : Nat → Bool) (pfuel : Nat)
    (reads : List QueueRead) : List Ev :=
  consumeLoop running paused pfuel reads 0 none ++ [Ev.highlight none, Ev.finished]

/-- The ids passed to `highlight_requested`, in emission order. -/
def hlSeq (evs : List Ev) : List (Option String) :=
  evs.filterMap (fun e =>
    match e with
    | Ev.highlight i => some i
    | _ => none)

/-- Specification-side helper: collapse consecutive duplicates, starting
from a previously seen value. -/
def dedupFrom : Option String → List String → List String
  | _, [] => []
  | last, i :: rest =>
    if some i = last then dedupFrom last rest
    else i :: dedupFrom (some i) rest

/-! ## `EpubReader.toggle_read_aloud` (main.py lines 351-385) -/

/-- One entry of `ALL_VOICES_DATA`. -/
structure VoiceInfo where
  displayName : String
  langCode : String
deriving DecidableEq

/-- `ALL_VOICES_DATA` (main.py lines 34-42). -/
def ALL_VOICES_DATA : List (String × VoiceInfo) :=
  [("af_alloy", ⟨"Alloy (US Female)", "a"⟩),
   ("af_heart", ⟨"Heart (US Female)", "a"⟩),
   ("af_nova", ⟨"Nova (US Female)", "a"⟩),
   ("am_echo", ⟨"Echo (US Male)", "a"⟩),
   ("am_onyx", ⟨"Onyx (US Male)", "a"⟩),
   ("bf_fable", ⟨"Fable (UK Female)", "b"⟩),
   ("bm_lewis", ⟨"Lewis (UK Male)", "b"⟩)]

/-- `DEFAULT_VOICE_KEY` (main.py line 43). -/
def DEFAULT_VOICE_KEY : String := "af_heart"

/-- `ALL_VOICES_DATA[voice_key]`. -/
def lookupVoice (key : String) : Option VoiceInfo :=
  (ALL_VOICES_DATA.lookup key)

/-- The `EpubReader` fields read or written by `toggle_read_aloud`:
`tts_thread and tts_thread.isRunning()` is `threadRunning`, the loaded
`kokoro_pipelines` keys are `loadedPipelines`, and the voice combo's
current data is `currentVoiceKey`. -/
structure ReaderState where
  threadRunning : Bool
  isTtsPaused : Bool
  ttsTextMap : List (String × String)
  loadedPipelines : List String
  currentVoiceKey : String
  speedSliderValue : Nat
deriving DecidableEq

/-- Observable outcome of one `toggle_read_aloud` call.  `started` marks
the only path that spawns the worker thread; `voiceKeyError` models the
`KeyError` Python would raise on a voice key missing from
`ALL_VOICES_DATA` (unreachable through the UI, whose combo box is
populated from that dict). -/
inductive ToggleOutcome where
  | resumedPlayback
  | pausedPlayback
  | nothingToRead
  | engineMissing (langCode : String)
  | started (voiceKey langCode : String)
  | voiceKeyError
deriving DecidableEq

/-- `EpubReader.toggle_read_aloud`. -/
def toggle_read_aloud (s : ReaderState) : ReaderState × ToggleOutcome :=
  if s.threadRunning then
    if s.isTtsPaused then
      ({ s with isTtsPaused := false }, ToggleOutcome.resumedPlayback)
    else
      ({ s with isTtsPaused := true }, ToggleOutcome.pausedPlayback)
  else if s.ttsTextMap = [] then (s, ToggleOutcome.nothingToRead)
  else
    match lookupVoice s.currentVoiceKey with
    | none => (s, ToggleOutcome.voiceKeyError)
    | some vi =>
      if vi.langCode ∈ s.loadedPipelines then
        ({ s with threadRunning := true },
         ToggleOutcome.started s.currentVoiceKey vi.langCode)
      else (s, ToggleOutcome.engineMissing vi.langCode)

/-! ## Supporting lemmas: `splitOnChar` and `joinChar` -/

theorem splitOnChar_ne_nil (sep : Char) (cs : List Char) :
    splitOnChar sep cs ≠ [] := by
  induction cs with
  | nil => simp [splitOnChar]
  | cons c cs ih =>
    unfold splitOnChar
    cases h : splitOnChar sep cs with
    | nil => simp
    | cons w ws => dsimp only; split <;> simp

theorem joinChar_splitOnChar (sep : Char) (cs : List Char) :
    joinChar sep (splitOnChar sep cs) = cs := by
  induction cs with
  | nil => rfl
  | cons c cs ih =>
    unfold splitOnChar
    cases h : splitOnChar sep cs with
    | nil => exact absurd h (splitOnChar_ne_nil sep cs)
    | cons w ws =>
      rw [h] at ih
      dsimp only
      by_cases hc : c = sep
      · subst hc
        simp only [if_pos rfl, joinChar, List.nil_append]
        cases ws <;> simp_all [joinChar]
      · simp only [if_neg hc]
        cases ws with
        | nil => simpa [joinChar] using congrArg (c :: ·) ih
        | cons w2 ws2 => simpa [joinChar] using congrArg (c :: ·) ih

theorem not_mem_of_mem_splitOnChar {sep : Char} {cs w : List Char}
    (hw : w ∈ splitOnChar sep cs) : sep ∉ w := by
  induction cs generalizing w with
  | nil => simp only [splitOnChar, List.mem_singleton] at hw; simp [hw]
  | cons c cs ih =>
    unfold splitOnChar at hw
    cases h : splitOnChar sep cs with
    | nil => exact absurd h (splitOnChar_ne_nil sep cs)
    | cons w0 ws =>
      rw [h] at hw
      dsimp only at hw
      by_cases hc : c = sep
      · rw [if_pos hc] at hw
        rcases List.mem_cons.mp hw with h1 | h2
        · simp [h1]
        · exact ih (h ▸ h2)
      · rw [if_neg hc] at hw
        rcases List.mem_cons.mp hw with h1 | h2
        · subst h1
          intro hmem
          rcases List.mem_cons.mp hmem with h3 | h4
          · exact hc h3.symm
          · exact ih (h ▸ List.mem_cons_self w0 ws) h4
        · exact ih (h ▸ List.mem_cons.mpr (Or.inr h2))

theorem mem_of_mem_splitOnChar {sep a : Char} {cs w : List Char}
    (hw : w ∈ splitOnChar sep cs) (ha : a ∈ w) : a ∈ cs := by
  induction cs generalizing w with
  | nil =>
    simp only [splitOnChar, List.mem_singleton] at hw
    subst hw; simp at ha
  | cons c cs ih =>
    unfold splitOnChar at hw
    cases h : splitOnChar sep cs with
    | nil => exact absurd h (splitOnChar_ne_nil sep cs)
    | cons w0 ws =>
      rw [h] at hw
      dsimp only at hw
      by_cases hc : c = sep
      · rw [if_pos hc] at hw
        rcases List.mem_cons.mp hw with h1 | h2
        · subst h1; simp at ha
        · exact List.mem_cons.mpr (Or.inr (ih (h ▸ h2) ha))
      · rw [if_neg hc] at hw
        rcases List.mem_cons.mp hw with h1 | h2
        · subst h1
          rcases List.mem_cons.mp ha with h3 | h4
          · exact List.mem_cons.mpr (Or.inl h3)
          · exact List.mem_cons.mpr
              (Or.inr (ih (h ▸ List.mem_cons_self w0 ws) h4))
        · exact List.mem_cons.mpr
            (Or.inr (ih (h ▸ List.mem_cons.mpr (Or.inr h2)) ha))

theorem splitOnChar_of_not_mem {sep : Char} {cs : List Char}
    (h : sep ∉ cs) : splitOnChar sep cs = [cs] := by
  induction cs with
  | nil => rfl
  | cons c cs ih =>
    have hc : ¬c = sep := fun hc => h (hc ▸ List.mem_cons_self c cs)
    have hcs : sep ∉ cs := fun hm => h (List.mem_cons.mpr (Or.inr hm))
    unfold splitOnChar
    rw [ih hcs]
    simp [hc]

theorem splitOnChar_cons (sep c : Char) (cs : List Char) :
    splitOnChar sep (c :: cs) =
      match splitOnChar sep cs with
      | [] => [[]]
      | w :: ws => if c = sep then [] :: w :: ws else (c :: w) :: ws := rfl

theorem splitOnChar_append_sep {sep : Char} {w : List Char}
    (hw : sep ∉ w) (rest : List Char) :
    splitOnChar sep (w ++ sep :: rest) = w :: splitOnChar sep rest := by
  induction w with
  | nil =>
    simp only [List.nil_append]
    rw [splitOnChar_cons]
    cases h : splitOnChar sep rest with
    | nil => exact absurd h (splitOnChar_ne_nil sep rest)
    | cons r rs => simp [← h]
  | cons c w ih =>
    have hc : ¬c = sep := fun hc => hw (hc ▸ List.mem_cons_self c w)
    have hw2 : sep ∉ w := fun hm => hw (List.mem_cons.mpr (Or.inr hm))
    simp only [List.cons_append]
    rw [splitOnChar_cons, ih hw2]
    simp [hc]

theorem splitOnChar_joinChar {sep : Char} {ws : List (List Char)}
    (hne : ws ≠ []) (hfree : ∀ w ∈ ws, sep ∉ w) :
    splitOnChar sep (joinChar sep ws) = ws := by
  induction ws with
  | nil => exact absurd rfl hne
  | cons w ws ih =>
    cases ws with
    | nil =>
      simp only [joinChar]
      exact splitOnChar_of_not_mem (hfree w (List.mem_cons_self w []))
    | cons w2 ws2 =>
      have h1 : joinChar sep (w :: w2 :: ws2) = w ++ sep :: joinChar sep (w2 :: ws2) := rfl
      rw [h1, splitOnChar_append_sep (hfree w (List.mem_cons_self w _))]
      rw [ih (by simp) (fun v hv => hfree v (List.mem_cons.mpr (Or.inr hv)))]

theorem mem_joinChar {sep a : Char} {ws : List (List Char)}
    (ha : a ∈ joinChar sep ws) : a = sep ∨ ∃ w ∈ ws, a ∈ w := by
  induction ws with
  | nil => simp [joinChar] at ha
  | cons w ws ih =>
    cases ws with
    | nil =>
      simp only [joinChar] at ha
      exact Or.inr ⟨w, List.mem_cons_self w [], ha⟩
    | cons w2 ws2 =>
      have h1 : joinChar sep (w :: w2 :: ws2) = w ++ sep :: joinChar sep (w2 :: ws2) := rfl
      rw [h1] at ha
      rcases List.mem_append.mp ha with h2 | h3
      · exact Or.inr ⟨w, List.mem_cons_self w _, h2⟩
      · rcases List.mem_cons.mp h3 with h4 | h5
        · exact Or.inl h4
        · rcases ih h5 with h6 | ⟨v, hv, hav⟩
          · exact Or.inl h6
          · exact Or.inr ⟨v, List.mem_cons.mpr (Or.inr hv), hav⟩

theorem joinChar_cons_cons_ne_nil (sep : Char) (w w2 : List Char)
    (ws : List (List Char)) : joinChar sep (w :: w2 :: ws) ≠ [] := by
  have h1 : joinChar sep (w :: w2 :: ws) = w ++ sep :: joinChar sep (w2 :: ws) := rfl
  rw [h1]
  simp

/-! ## Supporting lemmas: Python `str.title` tables -/

theorem mem_map_snd_of_lookup {l : List (Char × Char)} {k v : Char}
    (h : l.lookup k = some v) : v ∈ l.map Prod.snd := by
  induction l with
  | nil => simp [List.lookup] at h
  | cons p l ih =>
    obtain ⟨a, b⟩ := p
    simp only [List.lookup] at h
    cases hk : (k == a) with
    | true => simp [hk] at h; simp [h]
    | false => simp [hk] at h; exact List.mem_cons.mpr (Or.inr (ih h))

theorem pyToUpper_eq_or_mem (c : Char) :
    pyToUpper c = c ∨ pyToUpper c ∈ "ABCDEFGHIJKLMNOPQRSTUVWXYZ".data := by
  unfold pyToUpper
  cases h : asciiCasePairs.lookup c with
  | none => left; rfl
  | some v =>
    right
    have hv := mem_map_snd_of_lookup h
    have hm : asciiCasePairs.map Prod.snd = "ABCDEFGHIJKLMNOPQRSTUVWXYZ".data := by
      decide
    rw [hm] at hv
    simpa using hv

theorem pyToLower_eq_or_mem (c : Char) :
    pyToLower c = c ∨ pyToLower c ∈ "abcdefghijklmnopqrstuvwxyz".data := by
  unfold pyToLower
  cases h : (asciiCasePairs.map (fun p => (p.2, p.1))).lookup c with
  | none => left; rfl
  | some v =>
    right
    have hv := mem_map_snd_of_lookup h
    have hm : (asciiCasePairs.map (fun p => (p.2, p.1))).map Prod.snd =
        "abcdefghijklmnopqrstuvwxyz".data := by
      decide
    rw [hm] at hv
    simpa using hv

theorem mem_titleAux {b : Bool} {w : List Char} {a : Char}
    (ha : a ∈ titleAux b w) :
    ∃ e ∈ w, a = e ∨ a = pyToUpper e ∨ a = pyToLower e := by
  induction w generalizing b with
  | nil => simp [titleAux] at ha
  | cons c cs ih =>
    unfold titleAux at ha
    by_cases hc : pyIsAlpha c = true
    · rw [if_pos hc] at ha
      rcases List.mem_cons.mp ha with h1 | h2
      · refine ⟨c, List.mem_cons_self c cs, ?_⟩
        by_cases hb : b <;> simp [hb] at h1 <;> simp [h1]
      · obtain ⟨e, he, hae⟩ := ih h2
        exact ⟨e, List.mem_cons.mpr (Or.inr he), hae⟩
    · rw [if_neg hc] at ha
      rcases List.mem_cons.mp ha with h1 | h2
      · exact ⟨c, List.mem_cons_self c cs, Or.inl h1⟩
      · obtain ⟨e, he, hae⟩ := ih h2
        exact ⟨e, List.mem_cons.mpr (Or.inr he), hae⟩

/-- Neither `' '` nor `'\n'` can appear in a titled word unless it was
already present. -/
theorem not_mem_pyTitle {w : List Char} {a : Char}
    (hupper : a ∉ "ABCDEFGHIJKLMNOPQRSTUVWXYZ".data)
    (hlower : a ∉ "abcdefghijklmnopqrstuvwxyz".data)
    (hw : a ∉ w) : a ∉ pyTitle w := by
  intro ha
  obtain ⟨e, he, hae⟩ := mem_titleAux ha
  rcases hae with h1 | h2 | h3
  · exact hw (h1 ▸ he)
  · rcases pyToUpper_eq_or_mem e with h4 | h5
    · exact hw ((h2.trans h4) ▸ he)
    · exact hupper (h2 ▸ h5)
  · rcases pyToLower_eq_or_mem e with h4 | h5
    · exact hw ((h3.trans h4) ▸ he)
    · exact hlower (h3 ▸ h5)

/-! ## Supporting lemmas: `processLine` preserves line and token structure -/

theorem procWord_eq_or_title (w : List Char) :
    procWord w = w ∨ procWord w = pyTitle w := by
  simp only [procWord]
  split
  · right; rfl
  · left; rfl

theorem not_mem_procWord {w : List Char} {a : Char}
    (hupper : a ∉ "ABCDEFGHIJKLMNOPQRSTUVWXYZ".data)
    (hlower : a ∉ "abcdefghijklmnopqrstuvwxyz".data)
    (hw : a ∉ w) : a ∉ procWord w := by
  rcases procWord_eq_or_title w with h | h
  · rw [h]; exact hw
  · rw [h]; exact not_mem_pyTitle hupper hlower hw

theorem space_not_mem_procWord {w : List Char} (h : ' ' ∉ w) :
    ' ' ∉ procWord w :=
  not_mem_procWord (by decide) (by decide) h

theorem newline_not_mem_procWord {w : List Char} (h : '\n' ∉ w) :
    '\n' ∉ procWord w :=
  not_mem_procWord (by decide) (by decide) h

theorem newline_not_mem_processLine {line : List Char} (h : '\n' ∉ line) :
    '\n' ∉ processLine line := by
  simp only [processLine]
  split
  · intro hmem
    rcases mem_joinChar hmem with h1 | ⟨v, hv, hav⟩
    · exact absurd h1 (by decide)
    · obtain ⟨w, hw, rfl⟩ := List.mem_map.mp hv
      exact newline_not_mem_procWord
        (fun hnl => h (mem_of_mem_splitOnChar hw hnl)) hav
  · exact h

theorem splitOnChar_space_processLine (l : List Char) :
    (splitOnChar ' ' (processLine l)).length = (splitOnChar ' ' l).length := by
  simp only [processLine]
  split
  · rw [splitOnChar_joinChar]
    · rw [List.length_map]
    · simp [splitOnChar_ne_nil ' ' l]
    · intro v hv
      obtain ⟨w, hw, rfl⟩ := List.mem_map.mp hv
      exact space_not_mem_procWord (not_mem_of_mem_splitOnChar hw)
  · rfl

theorem splitOnChar_handle_uppercase (s : String) :
    splitOnChar '\n' (handle_uppercase_phrases s).data =
      (splitOnChar '\n' s.data).map processLine := by
  have h1 : (handle_uppercase_phrases s).data =
      joinChar '\n' ((splitOnChar '\n' s.data).map processLine) := rfl
  rw [h1, splitOnChar_joinChar]
  · simp [splitOnChar_ne_nil '\n' s.data]
  · intro v hv
    obtain ⟨l, hl, rfl⟩ := List.mem_map.mp hv
    exact newline_not_mem_processLine (not_mem_of_mem_splitOnChar hl)

theorem processLine_untouched {l : List Char}
    (h : ((splitOnChar ' ' l).filter
      (fun w => pyIsUpper w && w.length > 1)).length ≤ 2) :
    processLine l = l := by
  simp only [processLine]
  rw [if_neg]
  omega

/-- Claim C7: uppercase-phrase normalization operates per line, counting
fully-uppercase tokens of length > 1; only when that count exceeds 2 does
it rewrite qualifying tokens (acronym allow-list excluded, trailing
punctuation stripped for the test) to title case, leaving the line
untouched otherwise.  In particular every token of
`"THE QUICK BROWN FOX JUMPS"` is rewritten to title case, while
`"NASA launched it"` is returned unchanged. -/
theorem C7_uppercase_phrase_normalization :
    handle_uppercase_phrases "THE QUICK BROWN FOX JUMPS" =
        "The Quick Brown Fox Jumps"
    ∧ handle_uppercase_phrases "NASA launched it" = "NASA launched it"
    ∧ ∀ line : List Char, '\n' ∉ line →
        ((splitOnChar ' ' line).filter
          (fun w => pyIsUpper w && w.length > 1)).length ≤ 2 →
        handle_uppercase_phrases (String.mk line) = String.mk line := by
  refine ⟨by decide, by decide, ?_⟩
  intro line hnl hcount
  show String.mk (joinChar '\n' ((splitOnChar '\n' line).map processLine)) = _
  rw [splitOnChar_of_not_mem hnl]
  show String.mk (joinChar '\n' [processLine line]) = _
  rw [show joinChar '\n' [processLine line] = processLine line from rfl,
    processLine_untouched hcount]

/-- Witness for C7: a concrete line below the threshold is unchanged. -/
theorem C7_witness :
    handle_uppercase_phrases (String.mk "Hi there NASA".data) =
      String.mk "Hi there NASA".data :=
  C7_uppercase_phrase_normalization.2.2 "Hi there NASA".data
    (by decide) (by decide)

/-- Claim C10: for every input string, uppercase-phrase normalization
preserves text structure: the output has the same number of
newline-separated lines, each output line is the per-line rewrite of the
corresponding input line with the same number of space-separated tokens,
and a line whose count of fully-uppercase multi-character tokens is at
most 2 is returned exactly unchanged. -/
theorem C10_uppercase_structure_preserved (s : String) :
    splitOnChar '\n' (handle_uppercase_phrases s).data =
        (splitOnChar '\n' s.data).map processLine
    ∧ (splitOnChar '\n' (handle_uppercase_phrases s).data).length =
        (splitOnChar '\n' s.data).length
    ∧ (∀ l ∈ splitOnChar '\n' s.data,
        (splitOnChar ' ' (processLine l)).length = (splitOnChar ' ' l).length)
    ∧ (∀ l ∈ splitOnChar '\n' s.data,
        ((splitOnChar ' ' l).filter
          (fun w => pyIsUpper w && w.length > 1)).length ≤ 2 →
        processLine l = l) := by
  refine ⟨splitOnChar_handle_uppercase s, ?_, ?_, ?_⟩
  · rw [splitOnChar_handle_uppercase s, List.length_map]
  · intro l _
    exact splitOnChar_space_processLine l
  · intro l _ hcount
    exact processLine_untouched hcount

/-- Witness for C10: the per-line facts applied to a concrete chapter
line. -/
theorem C10_witness :
    processLine "NASA launched it".data = "NASA launched it".data :=
  (C10_uppercase_structure_preserved "NASA launched it").2.2.2
    "NASA launched it".data (by decide) (by decide)

/-- Claim C6: link pronunciation rewrites URL-like tokens by stripping
the scheme and spelling out dots, slashes, hyphens and underscores with
repeated spaces collapsed (`replaceLinkChars` is exactly that rewrite);
a whole URL-like token is rewritten to `replaceLinkChars` of itself, and
the spec's example input normalizes to text containing
`"example dot com slash page hyphen 1"`. -/
theorem C6_link_pronunciation :
    pronounce_links "Visit http://example.com/page-1 now" =
        "Visit example dot com slash page hyphen 1 now"
    ∧ formatText "Visit http://example.com/page-1 now" =
        "Visit example dot com slash page hyphen 1 now"
    ∧ ∀ u : List Char, tryMatchUrl u = some (u, []) →
        scanLinksF u.length u = replaceLinkChars u := by
  refine ⟨by decide, by decide, ?_⟩
  intro u h
  match u with
  | [] => exact absurd h (by decide)
  | c :: cs =>
    show scanLinksF (cs.length + 1) (c :: cs) = _
    rw [scanLinksF, h]
    simp [scanLinksF]

/-- Witness for C6: a concrete whole-token URL is rewritten by
`replaceLinkChars`. -/
theorem C6_witness :
    scanLinksF "http://a.b".data.length "http://a.b".data =
      replaceLinkChars "http://a.b".data :=
  C6_link_pronunciation.2.2 "http://a.b".data (by decide)

/-- Claim C5: `start()` (the non-toggling arm of `toggle_read_aloud`)
succeeds only from the idle state; with an empty chunk list it signals
the informational "nothing to read" no-op, and with no synthesis engine
loaded for the requested voice's language it signals the engine
precondition error — in both cases without mutating any state and
without spawning the worker (`started` is the only spawning outcome). -/
theorem C5_start_preconditions (s : ReaderState) :
    (∀ v l, (toggle_read_aloud s).2 = ToggleOutcome.started v l →
      s.threadRunning = false)
    ∧ (s.threadRunning = false → s.ttsTextMap = [] →
        toggle_read_aloud s = (s, ToggleOutcome.nothingToRead))
    ∧ (∀ vi, s.threadRunning = false → s.ttsTextMap ≠ [] →
        lookupVoice s.currentVoiceKey = some vi →
        vi.langCode ∉ s.loadedPipelines →
        toggle_read_aloud s = (s, ToggleOutcome.engineMissing vi.langCode)) := by
  refine ⟨?_, ?_, ?_⟩
  · intro v l h
    by_contra hrun
    have hr : s.threadRunning = true := by
      cases hh : s.threadRunning
      · exact absurd hh hrun
      · rfl
    unfold toggle_read_aloud at h
    rw [if_pos hr] at h
    by_cases hp : s.isTtsPaused = true
    · rw [if_pos hp] at h; exact ToggleOutcome.noConfusion h
    · rw [if_neg hp] at h; exact ToggleOutcome.noConfusion h
  · intro hrun hmap
    unfold toggle_read_aloud
    rw [if_neg (by rw [hrun]; exact Bool.false_ne_true), if_pos hmap]
  · intro vi hrun hmap hvoice hlang
    unfold toggle_read_aloud
    rw [if_neg (by rw [hrun]; exact Bool.false_ne_true), if_neg hmap, hvoice]
    simp only
    rw [if_neg hlang]

/-- Witness for C5: a concrete idle state with an empty chunk list
refuses with the "nothing to read" signal and is left unchanged. -/
theorem C5_witness :
    toggle_read_aloud ⟨false, false, [], ["a"], "af_heart", 10⟩ =
      (⟨false, false, [], ["a"], "af_heart", 10⟩, ToggleOutcome.nothingToRead) :=
  (C5_start_preconditions ⟨false, false, [], ["a"], "af_heart", 10⟩).2.1 rfl rfl

/-! ## Supporting lemmas: the producer's frames -/

theorem prodSegs_shape (flag : Nat → Bool) (chunkId : String)
    (segs : List (Option Audio)) (t : Nat) :
    ∀ f ∈ (prodSegs flag chunkId segs t).1, ∃ a, f = (some chunkId, some a) := by
  induction segs generalizing t with
  | nil => intro f hf; simp [prodSegs] at hf
  | cons seg rest ih =>
    intro f hf
    unfold prodSegs at hf
    by_cases hflag : flag t = false
    · rw [if_pos hflag] at hf; simp at hf
    · rw [if_neg hflag] at hf
      cases seg with
      | some a =>
        simp only at hf
        rcases List.mem_cons.mp hf with h1 | h2
        · exact ⟨a, h1⟩
        · exact ih (t + 1) f h2
      | none =>
        simp only at hf
        exact ih (t + 1) f hf

theorem prodChunks_shape (flag : Nat → Bool)
    (engine : String → List (Option Audio) × Option String)
    (chunks : List (String × String)) (t : Nat) :
    ∀ f ∈ (prodChunks flag engine chunks t).1,
      ∃ chunkId a, f = (some chunkId, some a) ∧ chunkId ∈ chunks.map Prod.fst := by
  induction chunks generalizing t with
  | nil => intro f hf; simp [prodChunks] at hf
  | cons c rest ih =>
    obtain ⟨chunkId, text⟩ := c
    intro f hf
    unfold prodChunks at hf
    by_cases hflag : flag t = false
    · rw [if_pos hflag] at hf; simp at hf
    · rw [if_neg hflag] at hf
      simp only at hf
      have hseg :
          ∀ g ∈ (prodSegs flag chunkId (engine text).1 (t + 1)).1,
            ∃ a, g = (some chunkId, some a) :=
        prodSegs_shape flag chunkId (engine text).1 (t + 1)
      have hcont :
          ∀ t2 : Nat,
            f ∈ (prodSegs flag chunkId (engine text).1 (t + 1)).1 ++
                (prodChunks flag engine rest t2).1 →
            ∃ cid a, f = (some cid, some a) ∧
              cid ∈ ((chunkId, text) :: rest).map Prod.fst := by
        intro t2 hmem
        rcases List.mem_append.mp hmem with h1 | h2
        · obtain ⟨a, ha⟩ := hseg f h1
          exact ⟨chunkId, a, ha, by simp⟩
        · obtain ⟨cid, a, ha, hm⟩ := ih t2 f h2
          refine ⟨cid, a, ha, ?_⟩
          rw [List.map_cons]
          exact List.mem_cons.mpr (Or.inr hm)
      revert hf
      split
      · -- broke = true
        split
        · intro hf
          obtain ⟨a, ha⟩ := hseg f hf
          exact ⟨chunkId, a, ha, by simp⟩
        · exact hcont _
      · -- broke = false
        split
        · intro hf
          obtain ⟨a, ha⟩ := hseg f hf
          exact ⟨chunkId, a, ha, by simp⟩
        · split
          · intro hf
            obtain ⟨a, ha⟩ := hseg f hf
            exact ⟨chunkId, a, ha, by simp⟩
          · exact hcont _

theorem drainQueue_eq_nil (q : List Frame) : drainQueue q = [] := by
  induction q with
  | nil => rfl
  | cons f rest ih => simpa [drainQueue] using ih

theorem countSentinel_prodChunks (flag : Nat → Bool)
    (engine : String → List (Option Audio) × Option String)
    (chunks : List (String × String)) (t : Nat) :
    countSentinel (prodChunks flag engine chunks t).1 = 0 := by
  unfold countSentinel
  rw [List.countP_eq_zero]
  intro f hf
  obtain ⟨cid, a, rfl, _⟩ := prodChunks_shape flag engine chunks t f hf
  simp

/-- Claim C9: every frame the producer enqueues other than the sentinel
has a chunk id drawn from the input chunk list and non-`None` audio
samples (`None` segments are skipped, not enqueued), so a dequeued
`chunk_id` of `None` unambiguously identifies end-of-stream. -/
theorem C9_frames_well_formed (flag : Nat → Bool)
    (engine : String → List (Option Audio) × Option String)
    (chunks : List (String × String)) (t : Nat) :
    ∀ f ∈ (producer flag engine chunks t).1,
      f = sentinelFrame ∨
        ∃ chunkId a, f = (some chunkId, some a) ∧ chunkId ∈ chunks.map Prod.fst := by
  intro f hf
  unfold producer at hf
  simp only at hf
  rcases List.mem_append.mp hf with h1 | h2
  · exact Or.inr (prodChunks_shape flag engine chunks t f h1)
  · exact Or.inl (List.mem_singleton.mp h2)

/-- Witness for C9 at a concrete schedule, engine and chunk list. -/
theorem C9_witness :
    ((some "a", some ([2] : Audio)) : Frame) ∈
        (producer (fun _ => true) (fun _ => ([some [2], none], none))
          [("a", "x")] 0).1
    ∧ ((((some "a", some ([2] : Audio)) : Frame) = sentinelFrame) ∨
        ∃ chunkId a, ((some "a", some ([2] : Audio)) : Frame) =
            (some chunkId, some a) ∧
          chunkId ∈ ([("a", "x")].map Prod.fst)) :=
  ⟨by decide,
   C9_frames_well_formed (fun _ => true) (fun _ => ([some [2], none], none))
     [("a", "x")] 0 (some "a", some [2]) (by decide)⟩

/-- Claim C1: per session exactly one sentinel is enqueued on every exit
path.  First part: the producer, for every flag schedule, engine
behaviour and chunk list, enqueues the sentinel exactly once, as its last
frame, before returning.  Second part: `stop()` first drains the channel
— so no sentinel remains in it at the force-enqueue — and leaves the
channel holding exactly one sentinel, with the running flag cleared. -/
theorem C1_sentinel_exactly_once :
    (∀ (flag : Nat → Bool)
        (engine : String → List (Option Audio) × Option String)
        (chunks : List (String × String)) (t : Nat),
      countSentinel (producer flag engine chunks t).1 = 1
      ∧ ((producer flag engine chunks t).1).getLast? = some sentinelFrame)
    ∧ (∀ s : WorkerState,
        countSentinel (drainQueue s.queue) = 0
        ∧ countSentinel (stopWorker s).queue = 1
        ∧ (stopWorker s).isRunning = false
        ∧ (stopWorker s).isPaused = false) := by
  constructor
  · intro flag engine chunks t
    constructor
    · show countSentinel ((prodChunks flag engine chunks t).1 ++ [sentinelFrame]) = 1
      unfold countSentinel
      rw [List.countP_append]
      have h0 := countSentinel_prodChunks flag engine chunks t
      unfold countSentinel at h0
      rw [h0]
      rfl
    · show ((prodChunks flag engine chunks t).1 ++ [sentinelFrame]).getLast? =
        some sentinelFrame
      rw [List.getLast?_concat]
  · intro s
    refine ⟨?_, ?_, rfl, rfl⟩
    · rw [drainQueue_eq_nil]; rfl
    · show countSentinel (drainQueue s.queue ++ [sentinelFrame]) = 1
      rw [drainQueue_eq_nil]
      rfl

/-! ## Supporting lemmas: the producer under an uninterrupted run -/

/-- The frames the producer enqueues for one chunk when never
interrupted: one frame per non-`None` segment, in engine order. -/
def blockFrames (engine : String → List (Option Audio) × Option String)
    (c : String × String) : List Frame :=
  (engine c.2).1.filterMap (fun s => s.map (fun a => (some c.1, some a)))

theorem prodSegs_true (chunkId : String) (segs : List (Option Audio)) (t : Nat) :
    prodSegs (fun _ => true) chunkId segs t =
      (segs.filterMap (fun s => s.map (fun a => ((some chunkId, some a) : Frame))),
       t + segs.length, false) := by
  induction segs generalizing t with
  | nil => simp [prodSegs]
  | cons seg rest ih =>
    unfold prodSegs
    rw [if_neg (by simp)]
    rw [ih (t + 1)]
    cases seg with
    | some a =>
      simp only [List.filterMap_cons, Option.map_some, List.length_cons]
      refine Prod.ext rfl (Prod.ext ?_ rfl)
      simp
      omega
    | none =>
      simp only [List.filterMap_cons, Option.map_none, List.length_cons]
      refine Prod.ext rfl (Prod.ext ?_ rfl)
      simp
      omega

theorem prodChunks_true_noerr
    (engine : String → List (Option Audio) × Option String)
    (chunks : List (String × String)) (t : Nat)
    (h : ∀ c ∈ chunks, (engine c.2).2 = none) :
    (prodChunks (fun _ => true) engine chunks t).1 =
        (chunks.map (blockFrames engine)).flatten
    ∧ (prodChunks (fun _ => true) engine chunks t).2.1 = none := by
  induction chunks generalizing t with
  | nil => simp [prodChunks]
  | cons c rest ih =>
    obtain ⟨cid, txt⟩ := c
    have herr : (engine txt).2 = none := h (cid, txt) (List.mem_cons_self _ _)
    unfold prodChunks
    rw [if_neg (by simp)]
    simp only [prodSegs_true, herr]
    have ihr := ih (t + 1 + (engine txt).1.length + 1)
      (fun c hc => h c (List.mem_cons.mpr (Or.inr hc)))
    simp only [if_neg (by simp : ¬((true : Bool) = false))]
    constructor
    · simp only [List.map_cons, List.flatten_cons]
      rw [ihr.1]
      rfl
    · exact ihr.2

theorem prodChunks_true_err
    (engine : String → List (Option Audio) × Option String)
    (pre post : List (String × String)) (cid txt e : String) (t : Nat)
    (hpre : ∀ c ∈ pre, (engine c.2).2 = none)
    (he : (engine txt).2 = some e) :
    (prodChunks (fun _ => true) engine (pre ++ (cid, txt) :: post) t).1 =
        (pre.map (blockFrames engine)).flatten ++ blockFrames engine (cid, txt)
    ∧ (prodChunks (fun _ => true) engine (pre ++ (cid, txt) :: post) t).2.1 =
        some e := by
  induction pre generalizing t with
  | nil =>
    simp only [List.nil_append]
    unfold prodChunks
    rw [if_neg (by simp)]
    simp only [prodSegs_true, he]
    simp [blockFrames]
  | cons c rest ih =>
    obtain ⟨cid2, txt2⟩ := c
    have herr : (engine txt2).2 = none := hpre (cid2, txt2) (List.mem_cons_self _ _)
    simp only [List.cons_append]
    unfold prodChunks
    rw [if_neg (by simp)]
    simp only [prodSegs_true, herr]
    simp only [if_neg (by simp : ¬((true : Bool) = false))]
    have ihr := ih (t + 1 + (engine txt2).1.length + 1)
      (fun c hc => hpre c (List.mem_cons.mpr (Or.inr hc)))
    constructor
    · simp only [List.map_cons, List.flatten_cons]
      rw [ihr.1]
      simp [blockFrames]
    · exact ihr.2

/-- Claim C4: if the synthesis engine raises while processing any chunk,
the producer stops processing all further chunks, reports the failure
exactly once through the error callback, returns normally (the model is a
total function: no exception crosses the producer boundary), and still
enqueues the sentinel as its final frame. -/
theorem C4_engine_error_handling
    (engine : String → List (Option Audio) × Option String)
    (pre post : List (String × String)) (cid txt e : String)
    (hpre : ∀ c ∈ pre, (engine c.2).2 = none)
    (he : (engine txt).2 = some e) :
    producer (fun _ => true) engine (pre ++ (cid, txt) :: post) 0 =
      ((pre.map (blockFrames engine)).flatten ++ blockFrames engine (cid, txt)
         ++ [sentinelFrame],
       ["Error during TTS generation: " ++ e]) := by
  have h := prodChunks_true_err engine pre post cid txt e 0 hpre he
  unfold producer
  rw [Prod.ext_iff]
  constructor
  · simp only
    rw [h.1, List.append_assoc]
  · simp only
    rw [h.2]
    rfl

/-- Witness for C4: a two-chunk list whose second chunk fails. -/
theorem C4_witness :
    producer (fun _ => true)
        (fun t => if t = "x" then ([some [1]], none) else ([], some "boom"))
        ([("a", "x")] ++ ("b", "y") :: []) 0 =
      (([("a", "x")].map (blockFrames
          (fun t => if t = "x" then ([some [1]], none) else ([], some "boom")))).flatten
         ++ blockFrames
              (fun t => if t = "x" then ([some [1]], none) else ([], some "boom"))
              ("b", "y")
         ++ [sentinelFrame],
       ["Error during TTS generation: " ++ "boom"]) :=
  C4_engine_error_handling
    (fun t => if t = "x" then ([some [1]], none) else ([], some "boom"))
    [("a", "x")] [] "b" "y" "boom" (by decide) (by decide)

/-! ## Supporting lemmas: the consumer loop on an uninterrupted run -/

theorem pausePoll_false (running : Nat → Bool) (fuel t : Nat) :
    pausePoll running (fun _ => false) fuel t = t := by
  cases fuel <;> simp [pausePoll]

/-- The events of an undisturbed consumer run over a queue of well-formed
frames followed by the sentinel. -/
def consumeSpec : List Frame → Option String → List Ev
  | [], _ => []
  | (some chunkId, a) :: rest, last =>
    (if some chunkId = last then [] else [Ev.highlight (some chunkId)]) ++
      Ev.play a :: consumeSpec rest (some chunkId)
  | (none, _) :: _, _ => []

theorem consumeLoop_true_frames (fs : List Frame)
    (h : ∀ f ∈ fs, f.1 ≠ none) (pfuel t : Nat) (last : Option String) :
    consumeLoop (fun _ => true) (fun _ => false) pfuel
        (fs.map QueueRead.frame ++ [QueueRead.frame sentinelFrame]) t last =
      consumeSpec fs last := by
  induction fs generalizing t last with
  | nil => simp [consumeLoop, sentinelFrame, consumeSpec]
  | cons f rest ih =>
    obtain ⟨cid, a⟩ := f
    cases cid with
    | none =>
      have hcontra := h (none, a) (List.mem_cons_self _ _)
      simp at hcontra
    | some cid =>
      simp only [List.map_cons, List.cons_append]
      unfold consumeLoop
      rw [if_neg (by simp)]
      simp only [pausePoll_false]
      rw [if_neg (by simp)]
      rw [ih (fun g hg => h g (List.mem_cons.mpr (Or.inr hg)))]
      rfl

theorem hlSeq_cons_highlight (i : Option String) (l : List Ev) :
    hlSeq (Ev.highlight i :: l) = i :: hlSeq l := rfl

theorem hlSeq_cons_play (a : Option Audio) (l : List Ev) :
    hlSeq (Ev.play a :: l) = hlSeq l := rfl

theorem hlSeq_append (l1 l2 : List Ev) :
    hlSeq (l1 ++ l2) = hlSeq l1 ++ hlSeq l2 :=
  List.filterMap_append l1 l2 _

theorem dedupFrom_cons (last : Option String) (i : String) (rest : List String) :
    dedupFrom last (i :: rest) =
      if some i = last then dedupFrom last rest
      else i :: dedupFrom (some i) rest := rfl

theorem hlSeq_consumeSpec (fs : List Frame)
    (h : ∀ f ∈ fs, f.1 ≠ none) (last : Option String) :
    hlSeq (consumeSpec fs last) =
      (dedupFrom last (fs.filterMap (fun f => f.1))).map some := by
  induction fs generalizing last with
  | nil => rfl
  | cons f rest ih =>
    obtain ⟨cid, a⟩ := f
    cases cid with
    | none =>
      have hcontra := h (none, a) (List.mem_cons_self _ _)
      simp at hcontra
    | some cid =>
      have ihr := ih (fun g hg => h g (List.mem_cons.mpr (Or.inr hg)))
      show hlSeq ((if some cid = last then [] else [Ev.highlight (some cid)]) ++
          Ev.play a :: consumeSpec rest (some cid)) = _
      rw [hlSeq_append, hlSeq_cons_play]
      simp only [List.filterMap_cons]
      rw [dedupFrom_cons]
      by_cases hl : (some cid : Option String) = last
      · rw [if_pos hl, if_pos hl]
        rw [ihr (some cid), ← hl]
        rfl
      · rw [if_neg hl, if_neg hl]
        rw [ihr (some cid)]
        rfl

theorem finished_not_mem_consumeSpec (fs : List Frame) (last : Option String) :
    Ev.finished ∉ consumeSpec fs last := by
  induction fs generalizing last with
  | nil => simp [consumeSpec]
  | cons f rest ih =>
    obtain ⟨cid, a⟩ := f
    cases cid with
    | none => simp [consumeSpec]
    | some cid =>
      unfold consumeSpec
      intro hmem
      rcases List.mem_append.mp hmem with h1 | h2
      · revert h1; split <;> simp
      · rcases List.mem_cons.mp h2 with h3 | h4
        · exact Ev.noConfusion h3
        · exact ih (some cid) h4

theorem filterMap_fst_frames (i : String) (l : List (Option Audio)) :
    ((l.filterMap (fun s => s.map (fun a => ((some i, some a) : Frame)))).filterMap
        (fun f => f.1)) =
      List.replicate
        ((l.filterMap (fun s => s.map (fun a => ((some i, some a) : Frame)))).length)
        i := by
  induction l with
  | nil => rfl
  | cons s rest ih =>
    cases s with
    | none => simpa [List.filterMap_cons] using ih
    | some a =>
      simp [List.filterMap_cons, List.replicate_succ, ih]

theorem filterMap_fst_blockFrames
    (engine : String → List (Option Audio) × Option String) (c : String × String) :
    (blockFrames engine c).filterMap (fun f => f.1) =
      List.replicate (blockFrames engine c).length c.1 :=
  filterMap_fst_frames c.1 (engine c.2).1

theorem blockFrames_shape
    (engine : String → List (Option Audio) × Option String) (c : String × String) :
    ∀ f ∈ blockFrames engine c, ∃ a, f = (some c.1, some a) := by
  intro f hf
  obtain ⟨s, _, heq⟩ := List.mem_filterMap.mp hf
  cases s with
  | none => simp at heq
  | some a => exact ⟨a, by simpa using heq.symm⟩

theorem flatten_blocks_shape
    (engine : String → List (Option Audio) × Option String)
    (chunks : List (String × String)) :
    ∀ f ∈ (chunks.map (blockFrames engine)).flatten, f.1 ≠ none := by
  intro f hf
  obtain ⟨l, hl, hfl⟩ := List.mem_flatten.mp hf
  obtain ⟨c, _, rfl⟩ := List.mem_map.mp hl
  obtain ⟨a, rfl⟩ := blockFrames_shape engine c f hfl
  simp

theorem dedupFrom_replicate (i : String) (n : Nat) (rest : List String) :
    dedupFrom (some i) (List.replicate n i ++ rest) = dedupFrom (some i) rest := by
  induction n with
  | zero => rfl
  | succ m ih =>
    rw [List.replicate_succ, List.cons_append, dedupFrom_cons, if_pos rfl]
    exact ih

theorem dedupFrom_blocks
    (engine : String → List (Option Audio) × Option String)
    (chunks : List (String × String)) (last : Option String)
    (hn : (chunks.map Prod.fst).Nodup)
    (hl : ∀ c ∈ chunks, some c.1 ≠ last) :
    dedupFrom last
        (((chunks.map (blockFrames engine)).flatten).filterMap (fun f => f.1)) =
      (chunks.filter (fun c => !(blockFrames engine c).isEmpty)).map Prod.fst := by
  induction chunks generalizing last with
  | nil => rfl
  | cons c rest ih =>
    have hn2 : (rest.map Prod.fst).Nodup := by
      rw [List.map_cons] at hn
      exact hn.of_cons
    have hnotmem : c.1 ∉ rest.map Prod.fst := by
      rw [List.map_cons] at hn
      exact (List.nodup_cons.mp hn).1
    simp only [List.map_cons, List.flatten_cons, List.filterMap_append,
      List.filter_cons]
    rw [filterMap_fst_blockFrames]
    cases hbf : blockFrames engine c with
    | nil =>
      simp only [List.length_nil, List.replicate_zero, List.nil_append,
        List.isEmpty_nil]
      rw [ih last hn2 (fun d hd => hl d (List.mem_cons.mpr (Or.inr hd)))]
      simp
    | cons f bfs =>
      simp only [List.length_cons, List.replicate_succ, List.cons_append,
        List.isEmpty_cons]
      rw [dedupFrom_cons, if_neg (hl c (List.mem_cons_self c rest)),
        dedupFrom_replicate]
      have hl2 : ∀ d ∈ rest, some d.1 ≠ some c.1 := by
        intro d hd heq
        exact hnotmem (by
          have : d.1 = c.1 := by injection heq
          rw [← this]
          exact List.mem_map.mpr ⟨d, hd, rfl⟩)
      rw [ih (some c.1) hn2 hl2]
      simp

/-- Claim C2: on an undisturbed run of the consumer over a chapter's
chunk list, with the producer emitting frames in chunk order, the
sequence of highlight events equals the ordered list of distinct chunk
ids of the consumed frames (one event per id, none repeated for
consecutive same-id frames, none skipped or reordered) followed by a
final `highlight(None)`, and the `finished` signal fires exactly once,
as the last event. -/
theorem C2_highlight_sequence
    (chunks : List (String × String))
    (engine : String → List (Option Audio) × Option String)
    (hn : (chunks.map Prod.fst).Nodup)
    (he : ∀ c ∈ chunks, (engine c.2).2 = none) :
    hlSeq (consumerRun (fun _ => true) (fun _ => false) 0
        (((producer (fun _ => true) engine chunks 0).1).map QueueRead.frame)) =
      (((chunks.filter
          (fun c => !(blockFrames engine c).isEmpty)).map Prod.fst).map some)
        ++ [none]
    ∧ (consumerRun (fun _ => true) (fun _ => false) 0
        (((producer (fun _ => true) engine chunks 0).1).map QueueRead.frame)).countP
          (fun e => e = Ev.finished) = 1
    ∧ (consumerRun (fun _ => true) (fun _ => false) 0
        (((producer (fun _ => true) engine chunks 0).1).map QueueRead.frame)).getLast?
        = some Ev.finished := by
  have hbody := (prodChunks_true_noerr engine chunks 0 he).1
  have hframes : (producer (fun _ => true) engine chunks 0).1 =
      (chunks.map (blockFrames engine)).flatten ++ [sentinelFrame] := by
    unfold producer
    simp only
    rw [hbody]
  have hshape := flatten_blocks_shape engine chunks
  have hmap : ((producer (fun _ => true) engine chunks 0).1).map QueueRead.frame =
      ((chunks.map (blockFrames engine)).flatten).map QueueRead.frame ++
        [QueueRead.frame sentinelFrame] := by
    rw [hframes, List.map_append]
    rfl
  have hev : consumerRun (fun _ => true) (fun _ => false) 0
      (((producer (fun _ => true) engine chunks 0).1).map QueueRead.frame) =
      consumeSpec ((chunks.map (blockFrames engine)).flatten) none ++
        [Ev.highlight none, Ev.finished] := by
    unfold consumerRun
    rw [hmap, consumeLoop_true_frames _ hshape 0 0 none]
  refine ⟨?_, ?_, ?_⟩
  · rw [hev, hlSeq_append, hlSeq_consumeSpec _ hshape none,
      dedupFrom_blocks engine chunks none hn (fun c _ => by simp)]
    rfl
  · rw [hev, List.countP_append]
    have h0 : (consumeSpec ((chunks.map (blockFrames engine)).flatten) none).countP
        (fun e => decide (e = Ev.finished)) = 0 := by
      rw [List.countP_eq_zero]
      intro e hmem
      simp only [decide_eq_true_eq]
      intro heq
      exact finished_not_mem_consumeSpec _ none (heq ▸ hmem)
    rw [h0]
    rfl
  · rw [hev,
      show consumeSpec ((chunks.map (blockFrames engine)).flatten) none ++
          [Ev.highlight none, Ev.finished] =
        (consumeSpec ((chunks.map (blockFrames engine)).flatten) none ++
          [Ev.highlight none]) ++ [Ev.finished] from by rw [List.append_assoc]; rfl,
      List.getLast?_concat]

/-- Witness for C2 on the spec's example chapter
`[("a", "Hello."), ("b", "World.")]`. -/
theorem C2_witness :
    hlSeq (consumerRun (fun _ => true) (fun _ => false) 0
        (((producer (fun _ => true)
            (fun _ => ([some [1]], none))
            [("a", "Hello."), ("b", "World.")] 0).1).map QueueRead.frame)) =
      ((([("a", "Hello."), ("b", "World.")].filter
          (fun c => !(blockFrames (fun _ => ([some [1]], none)) c).isEmpty)).map
            Prod.fst).map some) ++ [none]
    ∧ (consumerRun (fun _ => true) (fun _ => false) 0
        (((producer (fun _ => true)
            (fun _ => ([some [1]], none))
            [("a", "Hello."), ("b", "World.")] 0).1).map QueueRead.frame)).countP
          (fun e => e = Ev.finished) = 1
    ∧ (consumerRun (fun _ => true) (fun _ => false) 0
        (((producer (fun _ => true)
            (fun _ => ([some [1]], none))
            [("a", "Hello."), ("b", "World.")] 0).1).map QueueRead.frame)).getLast?
        = some Ev.finished :=
  C2_highlight_sequence [("a", "Hello."), ("b", "World.")]
    (fun _ => ([some [1]], none)) (by decide) (by decide)

/-- Claim C8: the consumer dequeues with a bounded (1 second) wait; when
the wait times out it exits the loop exactly when the producer thread is
no longer alive (a dead producer is an implicit end-of-stream), and
otherwise continues with its state unchanged, so it is never left waiting
on a producer that exited without delivering a sentinel. -/
theorem C8_timeout_exits_iff_producer_dead
    (running paused : Nat → Bool) (pfuel : Nat) (rest : List QueueRead)
    (t : Nat) (last : Option String) (hrun : running t = true) :
    consumeLoop running paused pfuel
        (QueueRead.timeoutEmpty false :: rest) t last = []
    ∧ consumeLoop running paused pfuel
        (QueueRead.timeoutEmpty true :: rest) t last =
      consumeLoop running paused pfuel rest (t + 1) last := by
  constructor
  · unfold consumeLoop
    rw [if_neg (by simp [hrun])]
    rfl
  · conv in consumeLoop running paused pfuel (QueueRead.timeoutEmpty true :: rest) t last =>
      rw [consumeLoop]
    rw [if_neg (by simp [hrun])]
    rfl

/-- Witness for C8 at a concrete schedule. -/
theorem C8_witness :
    consumeLoop (fun _ => true) (fun _ => false) 0
        (QueueRead.timeoutEmpty false :: []) 0 none = []
    ∧ consumeLoop (fun _ => true) (fun _ => false) 0
        (QueueRead.timeoutEmpty true :: []) 0 none =
      consumeLoop (fun _ => true) (fun _ => false) 0 [] 1 none :=
  C8_timeout_exits_iff_producer_dead (fun _ => true) (fun _ => false) 0 [] 0
    none rfl

/-! ## Supporting lemmas: normalization never collapses a non-empty
sentence to the empty string (so `_prepare_content_for_tts` wraps every
sentence in a span) -/

theorem mem_dropWhile_of_false {p : Char → Bool} {cs : List Char} {c : Char}
    (hc : c ∈ cs) (hp : p c = false) : c ∈ cs.dropWhile p := by
  induction cs with
  | nil => simp at hc
  | cons a rest ih =>
    rw [List.dropWhile_cons]
    split
    · rcases List.mem_cons.mp hc with h1 | h2
      · subst h1; simp_all
      · exact ih h2
    · exact hc

theorem mem_pyStrip {cs : List Char} {c : Char}
    (hc : c ∈ cs) (hp : pyIsSpace c = false) : c ∈ pyStrip cs := by
  unfold pyStrip
  rw [List.mem_reverse]
  exact mem_dropWhile_of_false (List.mem_reverse.mpr
    (mem_dropWhile_of_false hc hp)) hp

theorem pyStrip_ne_nil {cs : List Char} {c : Char}
    (hc : c ∈ cs) (hp : pyIsSpace c = false) : pyStrip cs ≠ [] :=
  List.ne_nil_of_mem (mem_pyStrip hc hp)

theorem mem_collapseSpaces {cs : List Char} {c : Char}
    (hc : c ∈ cs) (hp : pyIsSpace c = false) : c ∈ collapseSpaces cs := by
  induction cs with
  | nil => simp at hc
  | cons a rest ih =>
    cases rest with
    | nil => simpa [collapseSpaces] using hc
    | cons b rest2 =>
      unfold collapseSpaces
      split
      · rename_i hcond
        rcases List.mem_cons.mp hc with h1 | h2
        · subst h1
          simp only [Bool.and_eq_true, decide_eq_true_eq] at hcond
          rw [hcond.1] at hp
          simp [pyIsSpace] at hp
        · exact ih h2
      · rcases List.mem_cons.mp hc with h1 | h2
        · exact h1 ▸ List.mem_cons_self _ _
        · exact List.mem_cons.mpr (Or.inr (ih h2))

theorem charMapLink_witness {c : Char} (hp : pyIsSpace c = false) :
    ∃ d ∈ charMapLink c, pyIsSpace d = false := by
  unfold charMapLink
  split
  · exact ⟨'d', by decide, by decide⟩
  · split
    · exact ⟨'s', by decide, by decide⟩
    · split
      · exact ⟨'h', by decide, by decide⟩
      · split
        · exact ⟨'u', by decide, by decide⟩
        · exact ⟨c, List.mem_singleton.mpr rfl, hp⟩

theorem matchScheme_spec {scheme cs url rest : List Char}
    (h : matchScheme scheme cs = some (url, rest)) :
    ∃ run, url = scheme ++ run ∧ run ≠ [] ∧ ∀ c ∈ run, isUrlChar c = true := by
  unfold matchScheme at h
  split at h
  · simp only at h
    split at h
    · exact Option.noConfusion h
    · refine ⟨(cs.drop scheme.length).takeWhile isUrlChar, ?_, by assumption, ?_⟩
      · injection h with h2
        exact (Prod.ext_iff.mp h2.symm).1
      · intro c hc
        exact List.mem_takeWhile_imp hc
  · exact Option.noConfusion h

theorem stripScheme_https (run : List Char) :
    stripScheme ("https://".data ++ run) = run := by
  unfold stripScheme
  rw [if_pos (by simp [List.isPrefixOf_iff_prefix])]
  rw [show (8 : Nat) = "https://".data.length from rfl, List.drop_left]

theorem stripScheme_http (run : List Char) :
    stripScheme ("http://".data ++ run) = run := by
  unfold stripScheme
  rw [if_neg (by simp [List.isPrefixOf]),
    if_pos (by simp [List.isPrefixOf_iff_prefix])]
  rw [show (7 : Nat) = "http://".data.length from rfl, List.drop_left]

theorem stripScheme_www (run : List Char) :
    stripScheme ("www.".data ++ run) = "www.".data ++ run := by
  unfold stripScheme
  rw [if_neg (by simp [List.isPrefixOf]), if_neg (by simp [List.isPrefixOf])]

theorem isUrlChar_not_space {c : Char} (h : isUrlChar c = true) :
    pyIsSpace c = false := by
  cases hx : pyIsSpace c with
  | false => rfl
  | true =>
    unfold isUrlChar at h
    rw [hx] at h
    simp at h

theorem replaceLinkChars_ne_nil_of_witness {url : List Char}
    (h : ∃ c ∈ stripScheme url, pyIsSpace c = false) :
    replaceLinkChars url ≠ [] := by
  obtain ⟨c0, hc0, hsp⟩ := h
  obtain ⟨d, hd, hdsp⟩ := charMapLink_witness hsp
  have hflat : d ∈ ((stripScheme url).map charMapLink).flatten :=
    List.mem_flatten.mpr ⟨charMapLink c0, List.mem_map.mpr ⟨c0, hc0, rfl⟩, hd⟩
  exact pyStrip_ne_nil (mem_collapseSpaces hflat hdsp) hdsp

theorem replaceLinkChars_ne_nil {cs url rest : List Char}
    (h : tryMatchUrl cs = some (url, rest)) : replaceLinkChars url ≠ [] := by
  unfold tryMatchUrl at h
  cases h1 : matchScheme "https://".data cs with
  | some v =>
    rw [h1] at h
    simp at h
    rw [h] at h1
    obtain ⟨run, hurl, hrun, hall⟩ := matchScheme_spec h1
    subst hurl
    apply replaceLinkChars_ne_nil_of_witness
    rw [stripScheme_https]
    obtain ⟨c0, rest0, rfl⟩ := List.exists_cons_of_ne_nil hrun
    exact ⟨c0, List.mem_cons_self _ _,
      isUrlChar_not_space (hall c0 (List.mem_cons_self _ _))⟩
  | none =>
    rw [h1] at h
    simp only [Option.none_orElse] at h
    cases h2 : matchScheme "http://".data cs with
    | some v =>
      rw [h2] at h
      simp at h
      rw [h] at h2
      obtain ⟨run, hurl, hrun, hall⟩ := matchScheme_spec h2
      subst hurl
      apply replaceLinkChars_ne_nil_of_witness
      rw [stripScheme_http]
      obtain ⟨c0, rest0, rfl⟩ := List.exists_cons_of_ne_nil hrun
      exact ⟨c0, List.mem_cons_self _ _,
        isUrlChar_not_space (hall c0 (List.mem_cons_self _ _))⟩
    | none =>
      rw [h2] at h
      simp only [Option.none_orElse] at h
      obtain ⟨run, hurl, hrun, hall⟩ := matchScheme_spec h
      subst hurl
      apply replaceLinkChars_ne_nil_of_witness
      rw [stripScheme_www]
      exact ⟨'w', by simp, by decide⟩

theorem scanLinksF_ne_nil (fuel : Nat) (cs : List Char) (h : cs ≠ []) :
    scanLinksF fuel cs ≠ [] := by
  obtain ⟨c, cs2, rfl⟩ := List.exists_cons_of_ne_nil h
  cases fuel with
  | zero => simp [scanLinksF]
  | succ fuel2 =>
    unfold scanLinksF
    cases hm : tryMatchUrl (c :: cs2) with
    | some v =>
      obtain ⟨url, rest⟩ := v
      simp only
      exact fun habs =>
        replaceLinkChars_ne_nil hm (List.append_eq_nil.mp habs).1
    | none => simp

theorem String_mk_ne_empty {l : List Char} (h : l ≠ []) : String.mk l ≠ "" :=
  fun he => h (congrArg String.data he)

theorem data_ne_nil {s : String} (h : s ≠ "") : s.data ≠ [] := by
  intro hd
  apply h
  rw [show s = String.mk s.data from rfl, hd]

theorem pronounce_links_ne_empty {s : String} (h : s ≠ "") :
    pronounce_links s ≠ "" :=
  String_mk_ne_empty (scanLinksF_ne_nil s.data.length s.data (data_ne_nil h))

theorem replaceSubF_ne_nil (p : Char) (ps repl : List Char)
    (hrepl : repl ≠ []) (fuel : Nat) (cs : List Char) (h : cs ≠ []) :
    replaceSubF p ps repl fuel cs ≠ [] := by
  obtain ⟨c, cs2, rfl⟩ := List.exists_cons_of_ne_nil h
  cases fuel with
  | zero => simp [replaceSubF]
  | succ fuel2 =>
    unfold replaceSubF
    split
    · exact fun habs => hrepl (List.append_eq_nil.mp habs).1
    · simp

theorem pyReplace_ne_empty {pat repl s : String}
    (hrepl : repl ≠ "") (h : s ≠ "") : pyReplace pat repl s ≠ "" := by
  unfold pyReplace
  cases hp : pat.data with
  | nil => exact h
  | cons p ps =>
    exact String_mk_ne_empty
      (replaceSubF_ne_nil p ps repl.data (data_ne_nil hrepl)
        s.data.length s.data (data_ne_nil h))

theorem pronounce_special_chars_ne_empty {s : String} (h : s ≠ "") :
    pronounce_special_chars s ≠ "" := by
  unfold pronounce_special_chars
  refine pyReplace_ne_empty (by decide) ?_
  refine pyReplace_ne_empty (by decide) ?_
  refine pyReplace_ne_empty (by decide) ?_
  refine pyReplace_ne_empty (by decide) ?_
  exact pyReplace_ne_empty (by decide) h

theorem processLine_ne_nil {l : List Char} (h : l ≠ []) :
    processLine l ≠ [] := by
  simp only [processLine]
  split
  · rename_i hcond
    have hlen : (splitOnChar ' ' l).length > 2 :=
      lt_of_lt_of_le hcond (List.length_filter_le _ _)
    rcases hw : splitOnChar ' ' l with _ | ⟨w1, _ | ⟨w2, ws⟩⟩
    · exact absurd hw (splitOnChar_ne_nil ' ' l)
    · rw [hw] at hlen; simp at hlen
    · simp only [List.map_cons]
      exact joinChar_cons_cons_ne_nil ' ' _ _ _
  · exact h

theorem handle_uppercase_ne_empty {s : String} (h : s ≠ "") :
    handle_uppercase_phrases s ≠ "" := by
  apply String_mk_ne_empty
  have hjoin := joinChar_splitOnChar '\n' s.data
  rcases hls : splitOnChar '\n' s.data with _ | ⟨l, _ | ⟨l2, ls⟩⟩
  · exact absurd hls (splitOnChar_ne_nil '\n' s.data)
  · rw [hls] at hjoin
    have hl : l = s.data := hjoin
    simp only [List.map_cons, List.map_nil]
    show processLine l ≠ []
    exact processLine_ne_nil (hl ▸ data_ne_nil h)
  · simp only [List.map_cons]
    exact joinChar_cons_cons_ne_nil '\n' _ _ _

theorem formatText_ne_empty {s : String} (h : s ≠ "") : formatText s ≠ "" :=
  handle_uppercase_ne_empty
    (pronounce_special_chars_ne_empty (pronounce_links_ne_empty h))

theorem split_into_sentences_mem_ne {t x : String}
    (hx : x ∈ split_into_sentences t) : x ≠ "" := by
  unfold split_into_sentences at hx
  split at hx
  · simp at hx
  · obtain ⟨w, hw, rfl⟩ := List.mem_map.mp hx
    have hwne : w ≠ [] := by
      have := List.mem_filter.mp hw
      simpa using this.2
    exact String_mk_ne_empty hwne

/-! ## Specification-side description of `_prepare_content_for_tts` -/

/-- One recorded chunk per sentence, ids sequential from `idx`. -/
def sentenceChunks : List String → Nat → List (String × String)
  | [], _ => []
  | s :: rest, idx =>
    ("tts-sentence-" ++ toString idx, formatText s) :: sentenceChunks rest (idx + 1)

/-- One wrapping span per sentence, ids sequential from `idx`, the span
text being the original sentence plus a trailing space. -/
def sentenceSpans : List String → Nat → List (String × String)
  | [], _ => []
  | s :: rest, idx =>
    ("tts-sentence-" ++ toString idx, s ++ " ") :: sentenceSpans rest (idx + 1)

/-- The sentences of all blocks, in document order, as
`_prepare_content_for_tts` visits them. -/
def allSentences (blocks : List String) : List String :=
  (blocks.map (fun b => if b = "" then [] else split_into_sentences b)).flatten

theorem sentenceChunks_append (xs ys : List String) (idx : Nat) :
    sentenceChunks (xs ++ ys) idx =
      sentenceChunks xs idx ++ sentenceChunks ys (idx + xs.length) := by
  induction xs generalizing idx with
  | nil => simp [sentenceChunks]
  | cons x xs ih =>
    simp only [List.cons_append, sentenceChunks, List.length_cons, List.append_eq]
    rw [ih (idx + 1), show idx + 1 + xs.length = idx + (xs.length + 1) from by omega]

theorem sentenceSpans_append (xs ys : List String) (idx : Nat) :
    sentenceSpans (xs ++ ys) idx =
      sentenceSpans xs idx ++ sentenceSpans ys (idx + xs.length) := by
  induction xs generalizing idx with
  | nil => simp [sentenceSpans]
  | cons x xs ih =>
    simp only [List.cons_append, sentenceSpans, List.length_cons, List.append_eq]
    rw [ih (idx + 1), show idx + 1 + xs.length = idx + (xs.length + 1) from by omega]

theorem prepareSentences_eq (sents : List String)
    (h : ∀ x ∈ sents, x ≠ "") (idx : Nat) :
    prepareSentences sents idx =
      (sentenceChunks sents idx, sentenceSpans sents idx, idx + sents.length) := by
  induction sents generalizing idx with
  | nil => simp [prepareSentences, sentenceChunks, sentenceSpans]
  | cons s rest ih =>
    have hfmt : formatText s ≠ "" :=
      formatText_ne_empty (h s (List.mem_cons_self s rest))
    simp only [prepareSentences]
    rw [if_pos hfmt, ih (fun x hx => h x (List.mem_cons.mpr (Or.inr hx))) (idx + 1)]
    simp only [sentenceChunks, sentenceSpans, List.length_cons]
    refine Prod.ext rfl (Prod.ext rfl ?_)
    simp
    omega

theorem allSentences_cons (b : String) (rest : List String) :
    allSentences (b :: rest) =
      (if b = "" then [] else split_into_sentences b) ++ allSentences rest := rfl

theorem prepareBlocks_eq (blocks : List String) (idx : Nat) :
    prepareBlocks blocks idx =
      (sentenceChunks (allSentences blocks) idx,
       sentenceSpans (allSentences blocks) idx,
       idx + (allSentences blocks).length) := by
  induction blocks generalizing idx with
  | nil => simp [prepareBlocks, allSentences, sentenceChunks, sentenceSpans]
  | cons b rest ih =>
    rw [allSentences_cons]
    by_cases hb : b = ""
    · simp only [prepareBlocks]
      rw [if_pos hb, if_pos hb, List.nil_append, ih idx]
    · rw [if_neg hb]
      by_cases hs : split_into_sentences b = []
      · simp only [prepareBlocks]
        rw [if_neg hb, if_pos hs, hs, List.nil_append, ih idx]
      · simp only [prepareBlocks]
        rw [if_neg hb, if_neg hs]
        rw [prepareSentences_eq (split_into_sentences b)
          (fun x hx => split_into_sentences_mem_ne hx) idx]
        rw [ih (idx + (split_into_sentences b).length)]
        simp only
        rw [sentenceChunks_append, sentenceSpans_append, List.length_append]
        refine Prod.ext rfl (Prod.ext rfl ?_)
        simp
        omega

theorem allSentences_mem_ne {blocks : List String} {x : String}
    (hx : x ∈ allSentences blocks) : x ≠ "" := by
  obtain ⟨l, hl, hxl⟩ := List.mem_flatten.mp hx
  obtain ⟨b, _, rfl⟩ := List.mem_map.mp hl
  by_cases hb : b = ""
  · rw [if_pos hb] at hxl
    simp at hxl
  · rw [if_neg hb] at hxl
    exact split_into_sentences_mem_ne hxl

theorem sentenceChunks_snd_ne {sents : List String}
    (h : ∀ x ∈ sents, x ≠ "") (idx : Nat) :
    ∀ p ∈ sentenceChunks sents idx, p.2 ≠ "" := by
  induction sents generalizing idx with
  | nil => simp [sentenceChunks]
  | cons s rest ih =>
    intro p hp
    rcases List.mem_cons.mp hp with h1 | h2
    · rw [h1]
      exact formatText_ne_empty (h s (List.mem_cons_self s rest))
    · exact ih (fun x hx => h x (List.mem_cons.mpr (Or.inr hx))) (idx + 1) p h2

/-- Claim C3: for every block list processed by
`_prepare_content_for_tts`, every original sentence is wrapped in an
inline span carrying its sequential id `tts-sentence-<n>` (the spans
output is exactly `sentenceSpans` over all sentences, unconditionally —
which covers in particular any sentence whose normalized speech text
were empty), while a `(id, normalized_text)` chunk is recorded only for
sentences with non-empty normalized text: every recorded chunk has
non-empty text, because the normalization pipeline provably never
collapses a non-empty sentence to the empty string. -/
theorem C3_spans_for_every_sentence (blocks : List String) (idx : Nat) :
    (prepareBlocks blocks idx).2.1 = sentenceSpans (allSentences blocks) idx
    ∧ (prepareBlocks blocks idx).1 = sentenceChunks (allSentences blocks) idx
    ∧ ∀ p ∈ (prepareBlocks blocks idx).1, p.2 ≠ "" := by
  have h := prepareBlocks_eq blocks idx
  refine ⟨by rw [h], by rw [h], ?_⟩
  rw [h]
  exact sentenceChunks_snd_ne (fun x hx => allSentences_mem_ne hx) idx
